import Mathlib

set_option maxRecDepth 4000

/-!
Verification development for the tmux-sessionizer repository.

Each Rust function relevant to the checked claims is shallowly embedded as an
executable Lean definition, translated from the source files under `src/`:

* `src/repos.rs` — the streaming discovery loop `search_dirs_streaming`
  (lines 373-710); the synchronous `search_dirs` (lines 712-1039) has the same
  loop structure.
* `src/configs.rs` — `Config::search_dirs` duplicate coalescing (lines 262-278),
  `SessionFrecencyData` (lines 544-595), `Config::update_session_frecency`
  (lines 344-353), `get_github_cache_duration_hours` (lines 377-379).
* `src/github.rs` — `load_cached_repos` cache freshness (lines 60-79).
* `src/state.rs` — `AppState` (lines 8-19) and `StateManager::save_state`
  (lines 62-72).
* `src/perf_json.rs` — `to_file` (lines 84-92).
* `src/dirty_paths.rs` — `normalize_path` (lines 10-30).
* `src/picker/mod.rs` — `create_available_modes` (lines 115-127), the event
  loop ingest (lines 303-350), `clear_and_save_mode` (lines 1202-1217),
  `switch_to_mode` (lines 1119-1131).
* `src/main.rs` — the post-selection persistence block (lines 93-151).

Machine integers are modelled as `Nat` with explicit `% 2 ^ 64` where u64
wrap-around matters. Filesystem reads and clocks are abstracted as explicit
parameters (a finite directory listing, a Unix-seconds `now`).
-/

/-- A canonical absolute path, as its list of segments ("/a/b" is `["a", "b"]`). -/
abbrev DirPath := List String

/-- Mirrors `configs.rs` `struct SearchDirectory { path, depth }`. -/
structure SearchDirectory where
  path : DirPath
  depth : Nat
deriving DecidableEq

/-- Abstract finite filesystem snapshot used by the discovery engine.
`dirs` lists the existing directories (in `read_dir` enumeration order),
`files` the existing non-directory entries.  `openFail` are the paths on
which `RepoProvider::open` fails, `worktrees` those whose opened repository
reports `is_worktree()`; both are oracles for the repository object model,
which is outside the traversal code. -/
structure FileSystem where
  dirs : List DirPath
  files : List DirPath
  openFail : List DirPath
  worktrees : List DirPath
deriving DecidableEq

/-- Whether a path exists at all (`Path::exists`). -/
def FileSystem.entryExists (fs : FileSystem) (p : DirPath) : Bool :=
  fs.dirs.contains p || fs.files.contains p

/-- Whether a path is an existing directory (`Path::is_dir`). -/
def FileSystem.isDir (fs : FileSystem) (p : DirPath) : Bool :=
  fs.dirs.contains p

/-- Repository marker probe of `search_dirs_streaming` (repos.rs lines 504-514):
push ".git", test existence; if absent, swap for ".jj" and test existence. -/
def FileSystem.hasMarker (fs : FileSystem) (p : DirPath) : Bool :=
  fs.entryExists (p ++ [".git"]) || fs.entryExists (p ++ [".jj"])

/-- Whether `RepoProvider::open` succeeds on the path (oracle). -/
def FileSystem.openOk (fs : FileSystem) (p : DirPath) : Bool :=
  !(fs.openFail.contains p)

/-- Whether the opened repository is a worktree (oracle for `is_worktree`). -/
def FileSystem.isWorktree (fs : FileSystem) (p : DirPath) : Bool :=
  fs.worktrees.contains p

/-- The sorted fast-skip basename list of repos.rs lines 413-435 (sorting only
serves the binary search there, so membership is the semantics). -/
def commonSkipPatterns : List String :=
  ["Pods", "node_modules", "site-packages", "vendor",
   "Debug", "Release", "_build", "bazel-bin", "bazel-out", "bin", "build",
   "cmake-build-debug", "cmake-build-release", "dist", "obj", "out", "target",
   ".cache", ".cargo", ".ccls-cache", ".clangd", ".coverage", ".gradle",
   ".ivy2", ".jest", ".m2", ".mypy_cache", ".npm", ".nyc_output",
   ".pytest_cache", ".ruff_cache", ".sbt", ".yarn", "__pycache__", "coverage",
   ".env", ".venv", "anaconda3", "env", "miniconda3", "venv", "virtualenv",
   ".idea", ".vs", ".vscode", "DerivedData",
   ".angular", ".next", ".nuxt", ".solid", ".svelte-kit", ".turbo",
   ".docker", ".terraform", ".terragrunt-cache", "terraform.tfstate.d",
   ".go", ".nodenv", ".pyenv", ".rbenv", ".rustup",
   ".log", ".tmp", "logs", "temp", "tmp",
   "$RECYCLE.BIN", ".DS_Store", ".Trash", "System Volume Information"]

/-- Substring search helper: does `pat` occur as a contiguous run inside `hay`. -/
def containsSubAux : List Char → List Char → Bool
  | [], pat => pat.isEmpty
  | c :: t, pat => pat.isPrefixOf (c :: t) || containsSubAux t pat

/-- Aho-Corasick `is_match` over one pattern: the text contains the pattern. -/
def containsSub (hay pat : String) : Bool :=
  containsSubAux hay.data pat.data

/-- The exclusion automaton built from `excluded_dirs`: matches when any
configured pattern is a substring of the textual path. -/
def excluderMatch (patterns : List String) (text : String) : Bool :=
  patterns.any (fun pat => containsSub text pat)

/-- Textual form of a canonical absolute path. -/
def pathText (p : DirPath) : String :=
  String.join (p.map (fun seg => "/" ++ seg))

/-- True when `d` is an immediate child directory path of `parent`. -/
def isChildDir (parent d : DirPath) : Bool :=
  parent.isPrefixOf d && d.length == parent.length + 1

/-- The per-child filters of the `read_dir` task (repos.rs lines 595-626):
hidden names are skipped except ".git" and ".jj", fast-skip basenames are
skipped, then the user exclusion patterns are applied to the full path text.
A child whose basename is not valid text skips the two name checks, exactly
as the `if let Some(dir_name)` does. -/
def childKept (excludedDirs : Option (List String)) (d : DirPath) : Bool :=
  (match d.getLast? with
   | some name =>
       !(['.'].isPrefixOf name.data && name != ".git" && name != ".jj") &&
       !(commonSkipPatterns.contains name)
   | none => true) &&
  (match excludedDirs with
   | some pats => !(excluderMatch pats (pathText d))
   | none => true)

/-- The subdirectories pushed onto the work queue when `file` is expanded
(repos.rs lines 595-644), each with `file.depth - 1`. -/
def childEntries (fs : FileSystem) (excludedDirs : Option (List String))
    (file : SearchDirectory) : List SearchDirectory :=
  (fs.dirs.filter (fun d => isChildDir file.path d && childKept excludedDirs d)).map
    (fun d => ⟨d, file.depth - 1⟩)

/-- State of the streaming discovery loop.  `queue` is the shared work stack
with its top at the head (the Rust `Vec` popped from the back, reversed);
`emitted` is the sequence of repository paths sent to the output channel;
`popped` is a history variable recording the directories dequeued so far, used
only in specifications; `dirsScanned` and `reposOpened` are the two atomic
counters that drive the early-termination policy. -/
structure SearchState where
  queue : List SearchDirectory
  emitted : List DirPath
  popped : List DirPath
  dirsScanned : Nat
  reposOpened : Nat
deriving DecidableEq

/-- Outcome of one iteration of the discovery loop: `halt` corresponds to the
`break` statements (and to the empty-queue exit), `next` to falling through or
`continue`. -/
inductive StepOut where
  | halt (s : SearchState)
  | next (s : SearchState)
deriving DecidableEq

/-- The state carried out of a step. -/
def StepOut.state : StepOut → SearchState
  | .halt s => s
  | .next s => s

/-- The marker-probe-and-emit block of the loop (repos.rs lines 504-555): if
the popped directory carries a repository marker, open it; on success bump the
`repos_opened` counter and, unless the repository is a worktree and provided
the path has a valid final component for the session name, send the
repository's path on the output channel. -/
def markerEmit (fs : FileSystem) (fp : DirPath) (s1 : SearchState) : SearchState :=
  if fs.hasMarker fp then
    if fs.openOk fp then
      let s' := { s1 with reposOpened := s1.reposOpened + 1 }
      if !(fs.isWorktree fp) then
        match fp.getLast? with
        | some _ => { s' with emitted := s'.emitted ++ [fp] }
        | none => s'
      else s'
    else s1
  else s1

/-- One iteration of the `search_dirs_streaming` main loop (repos.rs lines
442-677), with the spawned repository-open and `read_dir` tasks run to
completion at their spawn point (a valid interleaving of the tokio tasks).
`elapsed450` tells whether more than 450 ms of wall clock have elapsed, the
only real-time input of the loop. -/
def streamStep (fs : FileSystem) (excludedDirs : Option (List String))
    (elapsed450 : Bool) (s : SearchState) : StepOut :=
  match s.queue with
  | [] => .halt s
  | file :: rest =>
    let s1 : SearchState :=
      { s with
        queue := rest
        dirsScanned := s.dirsScanned + 1
        popped := s.popped ++ [file.path] }
    if (match excludedDirs with
        | some pats => excluderMatch pats (pathText file.path)
        | none => false) then
      .next s1
    else if elapsed450 ∧ s1.reposOpened > 50 then
      .halt s1
    else if s1.dirsScanned > 50000 ∧ s1.reposOpened < 200 then
      .next s1
    else if s1.dirsScanned > 100000 ∧ s1.reposOpened > 500 then
      .halt s1
    else
      let s2 : SearchState := markerEmit fs file.path s1
      if fs.isDir file.path ∧ file.depth > 0 then
        .next { s2 with queue := (childEntries fs excludedDirs file).reverse ++ s2.queue }
      else
        .next s2

/-- Fuel-bounded run of the discovery loop; `e450` gives the wall-clock
oracle per iteration. -/
def streamRunAux (fs : FileSystem) (excludedDirs : Option (List String))
    (e450 : Nat → Bool) : Nat → Nat → SearchState → SearchState
  | 0, _, s => s
  | fuel + 1, iter, s =>
    match streamStep fs excludedDirs (e450 iter) s with
    | .halt s' => s'
    | .next s' => streamRunAux fs excludedDirs e450 fuel (iter + 1) s'

/-- Initial state: the queue holds the configured (already coalesced and
canonicalized) search roots. -/
def initialSearchState (roots : List SearchDirectory) : SearchState :=
  { queue := roots.reverse, emitted := [], popped := [], dirsScanned := 0, reposOpened := 0 }

/-- A full discovery run of `search_dirs_streaming`. -/
def searchDirsStreaming (fs : FileSystem) (excludedDirs : Option (List String))
    (e450 : Nat → Bool) (fuel : Nat) (roots : List SearchDirectory) : SearchState :=
  streamRunAux fs excludedDirs e450 fuel 0 (initialSearchState roots)

/-- Concrete filesystem with a repository at /a/b, where /a is also a
configured search root. -/
def fsNested : FileSystem :=
  { dirs := [["a"], ["a", "b"], ["a", "b", ".git"]]
    files := []
    openFail := []
    worktrees := [] }

/-- Two search roots, one an ancestor directory of the other. -/
def rootsNested : List SearchDirectory :=
  [⟨["a"], 2⟩, ⟨["a", "b"], 1⟩]

/-- Paths currently on the work queue. -/
def queuePaths (s : SearchState) : List DirPath := s.queue.map (·.path)

/-- Boolean test that neither path is an ancestor (path prefix) of the other. -/
def nonNestedB (p q : DirPath) : Bool := !(p.isPrefixOf q) && !(q.isPrefixOf p)

/-- Boolean test that no configured search root is nested below another one. -/
def pairwiseNonNested : List SearchDirectory → Bool
  | [] => true
  | d :: rest => rest.all (fun e => nonNestedB d.path e.path) && pairwiseNonNested rest

/-- Propositional form of root non-nesting. -/
def NonNestedRoots (roots : List DirPath) : Prop :=
  roots.Pairwise (fun p q => ¬ p <+: q ∧ ¬ q <+: p)

theorem pairwiseNonNested_sound :
    ∀ roots : List SearchDirectory, pairwiseNonNested roots = true →
      NonNestedRoots (roots.map (·.path))
  | [], _ => List.Pairwise.nil
  | d :: rest, h => by
    rw [pairwiseNonNested, Bool.and_eq_true, List.all_eq_true] at h
    refine List.Pairwise.cons ?_ (pairwiseNonNested_sound rest h.2)
    intro q hq
    obtain ⟨e, he, hne⟩ := List.mem_map.mp hq
    have := h.1 e he
    rw [nonNestedB, Bool.and_eq_true, Bool.not_eq_true', Bool.not_eq_true'] at this
    subst hne
    constructor
    · intro hpre
      rw [← List.isPrefixOf_iff_prefix, this.1] at hpre
      exact Bool.false_ne_true hpre
    · intro hpre
      rw [← List.isPrefixOf_iff_prefix, this.2] at hpre
      exact Bool.false_ne_true hpre

/-- Invariant of the discovery loop that yields emission uniqueness: every
path ever seen (queued or dequeued) is seen at most once, descends from some
configured root, and is either itself a root or the child of an
already-dequeued directory; emissions are dequeued paths without repetition. -/
structure SearchInv (roots : List DirPath) (s : SearchState) : Prop where
  nodupSeen : (queuePaths s ++ s.popped).Nodup
  rooted : ∀ q ∈ queuePaths s ++ s.popped, ∃ r ∈ roots, r <+: q
  parentSeen : ∀ q ∈ queuePaths s ++ s.popped, q ∈ roots ∨ (q ≠ [] ∧ q.dropLast ∈ s.popped)
  emittedPopped : ∀ e ∈ s.emitted, e ∈ s.popped
  emittedNodup : s.emitted.Nodup

theorem searchInv_congr (roots : List DirPath) {t t' : SearchState}
    (h : SearchInv roots t) (hq : t'.queue = t.queue) (he : t'.emitted = t.emitted)
    (hp : t'.popped = t.popped) : SearchInv roots t' := by
  constructor
  · rw [queuePaths, hq, hp]; exact h.nodupSeen
  · rw [queuePaths, hq, hp]; exact h.rooted
  · rw [queuePaths, hq, hp]; exact h.parentSeen
  · rw [he, hp]; exact h.emittedPopped
  · rw [he]; exact h.emittedNodup

theorem searchInv_emit (roots : List DirPath) {t t' : SearchState} (fp : DirPath)
    (h : SearchInv roots t) (hq : t'.queue = t.queue) (hp : t'.popped = t.popped)
    (he : t'.emitted = t.emitted ++ [fp]) (hpop : fp ∈ t.popped) (hnem : fp ∉ t.emitted) :
    SearchInv roots t' := by
  constructor
  · rw [queuePaths, hq, hp]; exact h.nodupSeen
  · rw [queuePaths, hq, hp]; exact h.rooted
  · rw [queuePaths, hq, hp]; exact h.parentSeen
  · rw [he, hp]
    intro e hee
    rcases List.mem_append.mp hee with h1 | h1
    · exact h.emittedPopped e h1
    · rw [List.mem_singleton.mp h1]; exact hpop
  · rw [he, List.nodup_append_comm]
    exact List.Nodup.cons hnem h.emittedNodup

theorem searchInv_markerEmit (roots : List DirPath) (fs : FileSystem) (fp : DirPath)
    {t : SearchState} (h : SearchInv roots t) (hpop : fp ∈ t.popped)
    (hnem : fp ∉ t.emitted) : SearchInv roots (markerEmit fs fp t) := by
  rw [markerEmit]
  split
  · split
    · split
      · split
        · exact searchInv_emit roots fp h rfl rfl rfl hpop hnem
        · exact searchInv_congr roots h rfl rfl rfl
      · exact searchInv_congr roots h rfl rfl rfl
    · exact searchInv_congr roots h rfl rfl rfl
  · exact searchInv_congr roots h rfl rfl rfl

theorem markerEmit_queue (fs : FileSystem) (fp : DirPath) (t : SearchState) :
    (markerEmit fs fp t).queue = t.queue := by
  rw [markerEmit]
  split <;> (try split) <;> (try split) <;> (try split) <;> rfl

theorem markerEmit_popped (fs : FileSystem) (fp : DirPath) (t : SearchState) :
    (markerEmit fs fp t).popped = t.popped := by
  rw [markerEmit]
  split <;> (try split) <;> (try split) <;> (try split) <;> rfl

/-- Paths of the children pushed when a directory is expanded. -/
theorem childEntries_paths (fs : FileSystem) (ex : Option (List String))
    (file : SearchDirectory) :
    (childEntries fs ex file).map (·.path)
      = fs.dirs.filter (fun d => isChildDir file.path d && childKept ex d) := by
  rw [childEntries, List.map_map]
  exact List.map_id _

/-- An immediate child is its parent with one extra final segment. -/
theorem isChildDir_shape {parent d : DirPath} (h : isChildDir parent d = true) :
    d ≠ [] ∧ d.dropLast = parent := by
  rw [isChildDir, Bool.and_eq_true] at h
  obtain ⟨t, ht⟩ := List.isPrefixOf_iff_prefix.mp h.1
  have hlen : d.length = parent.length + 1 := beq_iff_eq.mp h.2
  have htlen : t.length = 1 := by
    have := congrArg List.length ht
    rw [List.length_append] at this
    omega
  obtain ⟨x, hx⟩ := List.length_eq_one.mp htlen
  subst hx
  refine ⟨?_, ?_⟩
  · rw [← ht]; simp
  · rw [← ht]; exact List.dropLast_concat

/-- An immediate child is a strict extension of its parent. -/
theorem isChildDir_strict {parent d : DirPath} (h : isChildDir parent d = true) :
    parent <+: d ∧ parent.length < d.length := by
  rw [isChildDir, Bool.and_eq_true] at h
  refine ⟨List.isPrefixOf_iff_prefix.mp h.1, ?_⟩
  have := beq_iff_eq.mp h.2
  omega

theorem searchInv_streamStep (fs : FileSystem) (ex : Option (List String)) (e450 : Bool)
    (roots : List DirPath) (hroots : NonNestedRoots roots) (hfs : fs.dirs.Nodup)
    (s : SearchState) (hs : SearchInv roots s) :
    SearchInv roots (streamStep fs ex e450 s).state := by
  cases hq : s.queue with
  | nil =>
    simp only [streamStep, hq, StepOut.state]
    exact hs
  | cons file rest =>
    have hsplit : queuePaths s ++ s.popped
        = file.path :: (rest.map (·.path) ++ s.popped) := by
      simp [queuePaths, hq]
    have hnodup0 := hs.nodupSeen
    rw [hsplit] at hnodup0
    have hfp_notin : file.path ∉ rest.map (·.path) ++ s.popped :=
      (List.nodup_cons.mp hnodup0).1
    have hnodupL : (rest.map (·.path) ++ s.popped).Nodup := (List.nodup_cons.mp hnodup0).2
    have hmem1 : ∀ q, q ∈ (rest.map (·.path)) ++ (s.popped ++ [file.path]) →
        q ∈ queuePaths s ++ s.popped := by
      intro q hq'
      rw [hsplit]
      rcases List.mem_append.mp hq' with h1 | h1
      · exact List.mem_cons_of_mem _ (List.mem_append_left _ h1)
      · rcases List.mem_append.mp h1 with h2 | h2
        · exact List.mem_cons_of_mem _ (List.mem_append_right _ h2)
        · rw [List.mem_singleton.mp h2]; exact List.mem_cons_self _ _
    have hinv1 : SearchInv roots
        { s with queue := rest, dirsScanned := s.dirsScanned + 1,
                 popped := s.popped ++ [file.path] } := by
      constructor
      · show ((rest.map (·.path)) ++ (s.popped ++ [file.path])).Nodup
        rw [← List.append_assoc, List.nodup_append_comm]
        exact List.nodup_cons.mpr ⟨hfp_notin, hnodupL⟩
      · intro q hq'
        exact hs.rooted q (hmem1 q hq')
      · intro q hq'
        rcases hs.parentSeen q (hmem1 q hq') with h | ⟨h1, h2⟩
        · exact Or.inl h
        · exact Or.inr ⟨h1, List.mem_append_left _ h2⟩
      · intro e he
        exact List.mem_append_left _ (hs.emittedPopped e he)
      · exact hs.emittedNodup
    have hfp_pop1 : file.path ∈ s.popped ++ [file.path] :=
      List.mem_append_right _ (List.mem_singleton_self _)
    have hfp_nem1 : file.path ∉ s.emitted := fun hmem =>
      hfp_notin (List.mem_append_right _ (hs.emittedPopped _ hmem))
    have hinv2 : SearchInv roots
        (markerEmit fs file.path
          { s with queue := rest, dirsScanned := s.dirsScanned + 1,
                   popped := s.popped ++ [file.path] }) :=
      searchInv_markerEmit roots fs file.path hinv1 hfp_pop1 hfp_nem1
    have hrootfp : ∃ r ∈ roots, r <+: file.path :=
      hs.rooted file.path (by rw [hsplit]; exact List.mem_cons_self _ _)
    have hsymm : Symmetric (fun p q : DirPath => ¬ p <+: q ∧ ¬ q <+: p) :=
      fun _ _ h => ⟨h.2, h.1⟩
    have hroots' : roots.Pairwise (fun p q => ¬ p <+: q ∧ ¬ q <+: p) := hroots
    have hcsPaths := childEntries_paths fs ex file
    have hcs_nodup : ((childEntries fs ex file).map (·.path)).Nodup := by
      rw [hcsPaths]; exact hfs.filter _
    have hcs_mem : ∀ c ∈ (childEntries fs ex file).map (·.path),
        isChildDir file.path c = true := by
      intro c hc
      rw [hcsPaths] at hc
      have h2 := List.of_mem_filter hc
      rw [Bool.and_eq_true] at h2
      exact h2.1
    have hcs_fresh : ∀ c ∈ (childEntries fs ex file).map (·.path),
        c ∉ (rest.map (·.path)) ++ (s.popped ++ [file.path]) := by
      intro c hc hmem
      have hchild := hcs_mem c hc
      obtain ⟨hcne, hcdrop⟩ := isChildDir_shape hchild
      obtain ⟨hcpre, hclen⟩ := isChildDir_strict hchild
      have hold : c ∈ rest.map (·.path) ++ s.popped ∨ c = file.path := by
        rcases List.mem_append.mp hmem with h1 | h1
        · exact Or.inl (List.mem_append_left _ h1)
        · rcases List.mem_append.mp h1 with h2 | h2
          · exact Or.inl (List.mem_append_right _ h2)
          · exact Or.inr (List.mem_singleton.mp h2)
      rcases hold with h1 | h1
      · have hcomb : c ∈ queuePaths s ++ s.popped := by
          rw [hsplit]; exact List.mem_cons_of_mem _ h1
        rcases hs.parentSeen c hcomb with hcr | ⟨_, hdrop⟩
        · obtain ⟨r, hr, hrfp⟩ := hrootfp
          have hrc : r <+: c := hrfp.trans hcpre
          have hrne : r ≠ c := by
            intro h
            have := hrfp.length_le
            rw [h] at this
            omega
          exact (hroots'.forall hsymm hr hcr hrne).1 hrc
        · rw [hcdrop] at hdrop
          exact hfp_notin (List.mem_append_right _ hdrop)
      · rw [h1] at hclen
        omega
    have hinv3 : SearchInv roots
        { markerEmit fs file.path
            { s with queue := rest, dirsScanned := s.dirsScanned + 1,
                     popped := s.popped ++ [file.path] } with
          queue := (childEntries fs ex file).reverse ++
            (markerEmit fs file.path
              { s with queue := rest, dirsScanned := s.dirsScanned + 1,
                       popped := s.popped ++ [file.path] }).queue } := by
      have hq2 := markerEmit_queue fs file.path
        { s with queue := rest, dirsScanned := s.dirsScanned + 1,
                 popped := s.popped ++ [file.path] }
      have hp2 := markerEmit_popped fs file.path
        { s with queue := rest, dirsScanned := s.dirsScanned + 1,
                 popped := s.popped ++ [file.path] }
      constructor
      · show ((((childEntries fs ex file).reverse ++ _).map (·.path)) ++ _).Nodup
        rw [List.map_append, List.map_reverse, hq2, hp2, List.append_assoc]
        rw [List.nodup_append]
        refine ⟨List.nodup_reverse.mpr hcs_nodup, ?_, ?_⟩
        · exact hinv1.nodupSeen
        · intro c hcrev hcmem
          exact hcs_fresh c (List.mem_reverse.mp hcrev) hcmem
      · intro q hq'
        rw [queuePaths, List.map_append, List.map_reverse, hq2, hp2,
          List.append_assoc] at hq'
        rcases List.mem_append.mp hq' with h1 | h1
        · obtain ⟨r, hr, hrfp⟩ := hrootfp
          have hqc := hcs_mem q (List.mem_reverse.mp h1)
          exact ⟨r, hr, hrfp.trans (isChildDir_strict hqc).1⟩
        · exact hinv1.rooted q h1
      · intro q hq'
        rw [queuePaths, List.map_append, List.map_reverse, hq2, hp2,
          List.append_assoc] at hq'
        rcases List.mem_append.mp hq' with h1 | h1
        · have hqc := hcs_mem q (List.mem_reverse.mp h1)
          obtain ⟨hqne, hqdrop⟩ := isChildDir_shape hqc
          refine Or.inr ⟨hqne, ?_⟩
          rw [hp2, hqdrop]
          exact hfp_pop1
        · rcases hinv1.parentSeen q h1 with h | ⟨h2, h3⟩
          · exact Or.inl h
          · exact Or.inr ⟨h2, by rw [hp2]; exact h3⟩
      · intro e he
        have := hinv2.emittedPopped e he
        rwa [hp2] at this ⊢
      · exact hinv2.emittedNodup
    simp only [streamStep, hq]
    split
    · exact hinv1
    · split
      · exact hinv1
      · split
        · exact hinv1
        · split
          · exact hinv1
          · split
            · exact hinv3
            · exact hinv2

theorem searchInv_streamRunAux (fs : FileSystem) (ex : Option (List String))
    (e450 : Nat → Bool) (roots : List DirPath) (hroots : NonNestedRoots roots)
    (hfs : fs.dirs.Nodup) :
    ∀ (fuel iter : Nat) (s : SearchState), SearchInv roots s →
      SearchInv roots (streamRunAux fs ex e450 fuel iter s)
  | 0, _, _, hs => hs
  | fuel + 1, iter, s, hs => by
    rw [streamRunAux]
    have hstep := searchInv_streamStep fs ex (e450 iter) roots hroots hfs s hs
    cases h : streamStep fs ex (e450 iter) s with
    | halt s' =>
      rw [h] at hstep
      exact hstep
    | next s' =>
      rw [h] at hstep
      exact searchInv_streamRunAux fs ex e450 roots hroots hfs fuel (iter + 1) s' hstep

theorem searchInv_initial (roots : List SearchDirectory)
    (h : NonNestedRoots (roots.map (·.path))) :
    SearchInv (roots.map (·.path)) (initialSearchState roots) := by
  have hnd : (roots.map (·.path)).Nodup := by
    refine h.imp ?_
    intro a b hab heq
    exact hab.1 (heq ▸ List.prefix_refl a)
  constructor
  · simp only [initialSearchState, queuePaths, List.append_nil, List.map_reverse]
    exact List.nodup_reverse.mpr hnd
  · intro q hq
    simp only [initialSearchState, queuePaths, List.append_nil, List.map_reverse,
      List.mem_reverse] at hq
    exact ⟨q, hq, List.prefix_refl _⟩
  · intro q hq
    simp only [initialSearchState, queuePaths, List.append_nil, List.map_reverse,
      List.mem_reverse] at hq
    exact Or.inl hq
  · intro e he
    exact absurd he (List.not_mem_nil e)
  · exact List.nodup_nil

/-- C1 counterexample: with the configured search root /a (depth 2) an
ancestor directory of the configured search root /a/b (depth 1), and a
repository at /a/b, a single discovery run of `search_dirs_streaming` that
never hits a termination rule sends the canonical absolute path /a/b on the
output channel twice: once when /a/b is popped as a root and once more when
it is popped again as an enumerated child of /a. -/
theorem search_dirs_streaming_duplicate_emission :
    (searchDirsStreaming fsNested none (fun _ => false) 10 rootsNested).emitted
      = [["a", "b"], ["a", "b"]] ∧
    (searchDirsStreaming fsNested none (fun _ => false) 10 rootsNested).emitted.count
      (["a", "b"] : DirPath) = 2 := by
  constructor
  · decide
  · decide

/-- C1 (amended): in any discovery run of `search_dirs_streaming` over a
duplicate-free filesystem listing, if no configured search root is nested
below another configured root (no root path is a prefix of another), then the
output stream contains each canonical absolute repository path at most once.
The non-nesting side condition is necessary: when one root is an ancestor of
another, the nested root is reachable both as a root and as an enumerated
descendant and can be emitted twice. -/
theorem search_dirs_streaming_no_duplicate_emission
    (fs : FileSystem) (ex : Option (List String)) (e450 : Nat → Bool) (fuel : Nat)
    (roots : List SearchDirectory) (hfs : fs.dirs.Nodup)
    (hroots : pairwiseNonNested roots = true) :
    (searchDirsStreaming fs ex e450 fuel roots).emitted.Nodup := by
  have h := pairwiseNonNested_sound roots hroots
  exact (searchInv_streamRunAux fs ex e450 (roots.map (·.path)) h hfs fuel 0
    (initialSearchState roots) (searchInv_initial roots h)).emittedNodup

/-- Witness for the amended C1 theorem at a concrete configuration: a single
root /a over the nested filesystem satisfies the hypotheses and the run's
emissions are duplicate-free. -/
theorem search_dirs_streaming_no_duplicate_emission_witness :
    fsNested.dirs.Nodup ∧
    pairwiseNonNested [⟨["a"], 2⟩] = true ∧
    (searchDirsStreaming fsNested none (fun _ => false) 10 [⟨["a"], 2⟩]).emitted.Nodup :=
  ⟨by decide, by decide,
    search_dirs_streaming_no_duplicate_emission fsNested none (fun _ => false) 10
      [⟨["a"], 2⟩] (by decide) (by decide)⟩

/-- A loop state in which 50000 directories have been visited, no repository
has been found yet, and the next queued directory /a/b holds a repository
marker and an enumerable child. -/
def stateAt50k : SearchState :=
  { queue := [⟨["a", "b"], 1⟩]
    emitted := []
    popped := []
    dirsScanned := 50000
    reposOpened := 0 }

/-- C2: once more than 50000 directories are visited with fewer than 200
repositories found, the `continue` of the balanced-termination branch
(repos.rs lines 489-491) discards every popped directory instead of
processing it.  At `stateAt50k` the popped directory /a/b has a repository
marker and a child directory, yet the step emits nothing and enqueues
nothing: only the visit counter advances, contradicting the claim (and the
branch's own "keep scanning" comment) that such directories are still probed
and their children still enqueued. -/
theorem low_yield_branch_skips_processing :
    streamStep fsNested none false stateAt50k =
      .next { queue := [], emitted := [], popped := [["a", "b"]],
              dirsScanned := 50001, reposOpened := 0 } ∧
    fsNested.hasMarker ["a", "b"] = true ∧
    fsNested.openOk ["a", "b"] = true ∧
    fsNested.isWorktree ["a", "b"] = false ∧
    childEntries fsNested none ⟨["a", "b"], 1⟩ = [⟨["a", "b", ".git"], 0⟩] := by
  refine ⟨by decide, by decide, by decide, by decide, by decide⟩

/-- Insertion into the coalescing map of `Config::search_dirs` (configs.rs
lines 264-277), with the `HashMap` represented as an association list keyed by
canonical path: a vacant key inserts the entry, an occupied key is replaced
only when the incoming depth is strictly greater. -/
def upsertMax : List SearchDirectory → SearchDirectory → List SearchDirectory
  | [], d => [d]
  | e :: rest, d =>
    if e.path = d.path then
      if d.depth > e.depth then d :: rest else e :: rest
    else
      e :: upsertMax rest d

/-- The duplicate-coalescing pass of `Config::search_dirs` (configs.rs lines
262-278) over the already expanded and canonicalized entries. -/
def search_dirs_dedup (l : List SearchDirectory) : List SearchDirectory :=
  l.foldl upsertMax []

theorem upsertMax_keys (acc : List SearchDirectory) (d : SearchDirectory) :
    (upsertMax acc d).map (·.path) =
      if d.path ∈ acc.map (·.path) then acc.map (·.path)
      else acc.map (·.path) ++ [d.path] := by
  induction acc with
  | nil => simp [upsertMax]
  | cons e rest ih =>
    by_cases he : e.path = d.path
    · rw [upsertMax, if_pos he]
      by_cases hd : d.depth > e.depth
      · rw [if_pos hd]
        simp [← he]
      · rw [if_neg hd]
        simp [← he]
    · rw [upsertMax, if_neg he]
      simp only [List.map_cons]
      rw [ih]
      by_cases hmem : d.path ∈ rest.map (·.path)
      · rw [if_pos hmem, if_pos (List.mem_cons_of_mem _ hmem)]
      · rw [if_neg hmem, if_neg ?_, List.cons_append]
        intro hc
        rcases List.mem_cons.mp hc with h1 | h1
        · exact he h1.symm
        · exact hmem h1

theorem upsertMax_cases (acc : List SearchDirectory) (d : SearchDirectory)
    (hnd : (acc.map (·.path)).Nodup) :
    ∀ x ∈ upsertMax acc d,
      (x ∈ acc ∧ (x.path = d.path → d.depth ≤ x.depth)) ∨
      (x = d ∧ ∀ e0 ∈ acc, e0.path = d.path → e0.depth ≤ d.depth) := by
  induction acc with
  | nil =>
    intro x hx
    rw [upsertMax, List.mem_singleton] at hx
    exact Or.inr ⟨hx, fun e0 he0 _ => absurd he0 (List.not_mem_nil e0)⟩
  | cons e rest ih =>
    have hndrest : (rest.map (·.path)).Nodup := (List.nodup_cons.mp hnd).2
    have hkey : e.path ∉ rest.map (·.path) := (List.nodup_cons.mp hnd).1
    intro x hx
    by_cases he : e.path = d.path
    · rw [upsertMax, if_pos he] at hx
      by_cases hd : d.depth > e.depth
      · rw [if_pos hd] at hx
        rcases List.mem_cons.mp hx with h1 | h1
        · refine Or.inr ⟨h1, ?_⟩
          intro e0 he0 hpe0
          rcases List.mem_cons.mp he0 with h2 | h2
          · rw [h2]; omega
          · have hm : e0.path ∈ rest.map (·.path) := List.mem_map_of_mem (·.path) h2
            rw [hpe0, ← he] at hm
            exact absurd hm hkey
        · refine Or.inl ⟨List.mem_cons_of_mem _ h1, ?_⟩
          intro hp
          have hm : x.path ∈ rest.map (·.path) := List.mem_map_of_mem (·.path) h1
          rw [hp, ← he] at hm
          exact absurd hm hkey
      · rw [if_neg hd] at hx
        rcases List.mem_cons.mp hx with h1 | h1
        · refine Or.inl ⟨h1 ▸ List.mem_cons_self e rest, ?_⟩
          intro _
          rw [h1]
          omega
        · refine Or.inl ⟨List.mem_cons_of_mem _ h1, ?_⟩
          intro hp
          have hm : x.path ∈ rest.map (·.path) := List.mem_map_of_mem (·.path) h1
          rw [hp, ← he] at hm
          exact absurd hm hkey
    · rw [upsertMax, if_neg he] at hx
      rcases List.mem_cons.mp hx with h1 | h1
      · refine Or.inl ⟨h1 ▸ List.mem_cons_self e rest, ?_⟩
        intro hp
        rw [h1] at hp
        exact absurd hp he
      · rcases ih hndrest x h1 with ⟨h2, h3⟩ | ⟨h2, h3⟩
        · exact Or.inl ⟨List.mem_cons_of_mem _ h2, h3⟩
        · refine Or.inr ⟨h2, ?_⟩
          intro e0 he0 hpe0
          rcases List.mem_cons.mp he0 with h4 | h4
          · exact absurd (h4 ▸ hpe0) he
          · exact h3 e0 h4 hpe0

/-- Invariant of the coalescing fold over the processed entries `seen`. -/
structure DedupInv (seen acc : List SearchDirectory) : Prop where
  keysNodup : (acc.map (·.path)).Nodup
  keysIff : ∀ p : DirPath, p ∈ acc.map (·.path) ↔ p ∈ seen.map (·.path)
  attains : ∀ e ∈ acc, e ∈ seen
  bounds : ∀ e ∈ acc, ∀ e' ∈ seen, e'.path = e.path → e'.depth ≤ e.depth

theorem dedupInv_step {seen acc : List SearchDirectory} (h : DedupInv seen acc)
    (d : SearchDirectory) : DedupInv (seen ++ [d]) (upsertMax acc d) := by
  have hkeys := upsertMax_keys acc d
  constructor
  · rw [hkeys]
    by_cases hmem : d.path ∈ acc.map (·.path)
    · rw [if_pos hmem]; exact h.keysNodup
    · rw [if_neg hmem, List.nodup_append_comm]
      exact List.nodup_cons.mpr ⟨hmem, h.keysNodup⟩
  · intro p
    rw [hkeys, List.map_append]
    by_cases hmem : d.path ∈ acc.map (·.path)
    · rw [if_pos hmem]
      constructor
      · intro hp
        exact List.mem_append_left _ ((h.keysIff p).mp hp)
      · intro hp
        rcases List.mem_append.mp hp with h1 | h1
        · exact (h.keysIff p).mpr h1
        · rw [show ([d].map (·.path)) = [d.path] from rfl, List.mem_singleton] at h1
          rw [h1]
          exact hmem
    · rw [if_neg hmem]
      constructor
      · intro hp
        rcases List.mem_append.mp hp with h1 | h1
        · exact List.mem_append_left _ ((h.keysIff p).mp h1)
        · exact List.mem_append_right _ h1
      · intro hp
        rcases List.mem_append.mp hp with h1 | h1
        · exact List.mem_append_left _ ((h.keysIff p).mpr h1)
        · exact List.mem_append_right _ h1
  · intro e he
    rcases upsertMax_cases acc d h.keysNodup e he with ⟨h1, _⟩ | ⟨h1, _⟩
    · exact List.mem_append_left _ (h.attains e h1)
    · exact List.mem_append_right _ (h1 ▸ List.mem_singleton_self d)
  · intro e he e' he' hpe
    rcases upsertMax_cases acc d h.keysNodup e he with ⟨h1, h2⟩ | ⟨h1, h2⟩
    · rcases List.mem_append.mp he' with h3 | h3
      · exact h.bounds e h1 e' h3 hpe
      · rw [List.mem_singleton.mp h3] at hpe ⊢
        exact h2 hpe.symm
    · rcases List.mem_append.mp he' with h3 | h3
      · by_cases hkm : e'.path ∈ acc.map (·.path)
        · obtain ⟨x0, hx0, hpx0⟩ := List.mem_map.mp hkm
          have hb := h.bounds x0 hx0 e' h3 hpx0.symm
          have hx0d := h2 x0 hx0 (by rw [hpx0, hpe, h1])
          rw [h1]
          omega
        · have : e'.path ∈ seen.map (·.path) := List.mem_map_of_mem (·.path) h3
          rw [← h.keysIff e'.path] at this
          exact absurd this hkm
      · rw [List.mem_singleton.mp h3, h1]

theorem dedupInv_base : DedupInv [] [] := by
  constructor
  · exact List.nodup_nil
  · intro p; rfl
  · intro e he; exact absurd he (List.not_mem_nil e)
  · intro e he; exact absurd he (List.not_mem_nil e)

theorem dedupInv_foldl :
    ∀ (l seen acc : List SearchDirectory), DedupInv seen acc →
      DedupInv (seen ++ l) (l.foldl upsertMax acc)
  | [], seen, acc, h => by simpa using h
  | d :: l, seen, acc, h => by
    have h2 := dedupInv_foldl l (seen ++ [d]) (upsertMax acc d) (dedupInv_step h d)
    rw [List.append_assoc] at h2
    simpa using h2

theorem dedupInv_search_dirs_dedup (l : List SearchDirectory) :
    DedupInv l (search_dirs_dedup l) := by
  have := dedupInv_foldl l [] [] dedupInv_base
  simpa [search_dirs_dedup] using this

theorem filter_key_singleton (acc : List SearchDirectory) (p : DirPath)
    (hnd : (acc.map (·.path)).Nodup) (hp : p ∈ acc.map (·.path)) :
    (acc.filter (fun e => e.path == p)).length = 1 := by
  induction acc with
  | nil => exact absurd hp (List.not_mem_nil p)
  | cons e rest ih =>
    have hkey : e.path ∉ rest.map (·.path) := (List.nodup_cons.mp hnd).1
    have hndrest : (rest.map (·.path)).Nodup := (List.nodup_cons.mp hnd).2
    by_cases he : e.path = p
    · rw [List.filter_cons_of_pos (by simp [he])]
      have : rest.filter (fun e => e.path == p) = [] := by
        rw [List.filter_eq_nil_iff]
        intro x hx hbe
        have : x.path = p := by simpa using hbe
        exact hkey (he ▸ this ▸ List.mem_map_of_mem (·.path) hx)
      rw [this]
      rfl
    · rw [List.filter_cons_of_neg (by simp [he])]
      refine ih hndrest ?_
      rcases List.mem_cons.mp hp with h1 | h1
      · exact absurd h1.symm he
      · exact h1

/-- C7: for any already-canonicalized entry list in which a path appears
(possibly several times with different depths), the coalesced search-root set
produced by `Config::search_dirs` contains exactly one entry at that path, and
that entry's depth is the maximum of the depths of all entries at the path:
it is attained by one of them and bounds all of them. -/
theorem search_dirs_dedup_coalesces (l : List SearchDirectory) (p : DirPath)
    (hp : p ∈ l.map (·.path)) :
    ((search_dirs_dedup l).filter (fun e => e.path == p)).length = 1 ∧
    ∀ e ∈ search_dirs_dedup l, e.path = p →
      (∃ e' ∈ l, e'.path = p ∧ e'.depth = e.depth) ∧
      ∀ e' ∈ l, e'.path = p → e'.depth ≤ e.depth := by
  have hinv := dedupInv_search_dirs_dedup l
  constructor
  · exact filter_key_singleton _ p hinv.keysNodup ((hinv.keysIff p).mpr hp)
  · intro e he hpe
    refine ⟨⟨e, hinv.attains e he, hpe, rfl⟩, ?_⟩
    intro e' he' hpe'
    exact hinv.bounds e he e' he' (hpe'.trans hpe.symm)

/-- Witness for C7 at the overlap scenario of the repository's own test
(three entries at one path with depths 5, 10, 3 plus one other path): the
coalesced set keeps a single entry at the duplicated path and its depth 10 is
the maximum of the duplicates. -/
theorem search_dirs_dedup_coalesces_witness :
    (["r"] : DirPath) ∈
      ([⟨["r"], 5⟩, ⟨["r"], 10⟩, ⟨["r"], 3⟩, ⟨["o"], 4⟩] :
        List SearchDirectory).map (·.path) ∧
    ((search_dirs_dedup [⟨["r"], 5⟩, ⟨["r"], 10⟩, ⟨["r"], 3⟩, ⟨["o"], 4⟩]).filter
      (fun e => e.path == ["r"])).length = 1 ∧
    ∀ e ∈ search_dirs_dedup [⟨["r"], 5⟩, ⟨["r"], 10⟩, ⟨["r"], 3⟩, ⟨["o"], 4⟩],
      e.path = ["r"] →
      (∃ e' ∈ ([⟨["r"], 5⟩, ⟨["r"], 10⟩, ⟨["r"], 3⟩, ⟨["o"], 4⟩] :
          List SearchDirectory), e'.path = ["r"] ∧ e'.depth = e.depth) ∧
      ∀ e' ∈ ([⟨["r"], 5⟩, ⟨["r"], 10⟩, ⟨["r"], 3⟩, ⟨["o"], 4⟩] :
          List SearchDirectory), e'.path = ["r"] → e'.depth ≤ e.depth :=
  ⟨by decide,
    (search_dirs_dedup_coalesces _ _ (by decide)).1,
    (search_dirs_dedup_coalesces _ _ (by decide)).2⟩

/-- The byte loop of `normalize_path` (dirty_paths.rs lines 10-30), over the
characters of the UTF-8 string: the path separator is ASCII, so every
non-separator byte is pushed unchanged and collapsing runs of the separator is
the same at byte and character level.  `prevSlash` mirrors `prev_slash`,
`result` the output buffer. -/
def normalizePathGo : List Char → Bool → List Char → List Char
  | [], _, result => result
  | b :: rest, prevSlash, result =>
    if b = '/' then
      normalizePathGo rest true
        (if !prevSlash || result.isEmpty then result ++ [b] else result)
    else
      normalizePathGo rest false (result ++ [b])

/-- `normalize_path` of dirty_paths.rs: collapse duplicate separators. -/
def normalize_path (s : String) : String :=
  String.mk (normalizePathGo s.data false [])

/-- No two adjacent characters of the list are both the separator. -/
def noDoubleSlash (l : List Char) : Prop :=
  l.Chain' (fun a b => ¬(a = '/' ∧ b = '/'))

theorem normalizePathGo_acc_nonempty :
    ∀ (bs : List Char) (prev : Bool) (acc : List Char), acc ≠ [] →
      normalizePathGo bs prev acc ≠ []
  | [], _, _, h => h
  | b :: rest, prev, acc, h => by
    rw [normalizePathGo]
    by_cases hb : b = '/'
    · rw [if_pos hb]
      by_cases hc : (!prev || acc.isEmpty) = true
      · rw [if_pos hc]
        exact normalizePathGo_acc_nonempty rest true (acc ++ [b]) (by simp)
      · rw [if_neg hc]
        exact normalizePathGo_acc_nonempty rest true acc h
    · rw [if_neg hb]
      exact normalizePathGo_acc_nonempty rest false (acc ++ [b]) (by simp)

theorem normalizePathGo_head :
    ∀ (bs : List Char) (prev : Bool) (acc : List Char), acc ≠ [] →
      (normalizePathGo bs prev acc).head? = acc.head?
  | [], _, _, _ => rfl
  | b :: rest, prev, acc, h => by
    rw [normalizePathGo]
    have happ : (acc ++ [b]).head? = acc.head? := by
      cases acc with
      | nil => exact absurd rfl h
      | cons x xs => rfl
    by_cases hb : b = '/'
    · rw [if_pos hb]
      by_cases hc : (!prev || acc.isEmpty) = true
      · rw [if_pos hc, normalizePathGo_head rest true (acc ++ [b]) (by simp)]
        exact happ
      · rw [if_neg hc]
        exact normalizePathGo_head rest true acc h
    · rw [if_neg hb]
      rw [normalizePathGo_head rest false (acc ++ [b]) (by simp)]
      exact happ

theorem normalizePathGo_getLast :
    ∀ (bs : List Char) (prev : Bool) (acc : List Char), bs ≠ [] →
      (prev = true → acc.getLast? = some '/') →
      ((normalizePathGo bs prev acc).getLast? = some '/' ↔ bs.getLast? = some '/')
  | [], _, _, hbs, _ => absurd rfl hbs
  | [b], prev, acc, _, hinv => by
    rw [normalizePathGo]
    by_cases hb : b = '/'
    · rw [if_pos hb]
      by_cases hc : (!prev || acc.isEmpty) = true
      · rw [if_pos hc, normalizePathGo, List.getLast?_append]
        simp [hb]
      · rw [if_neg hc, normalizePathGo]
        have hprev : prev = true := by
          rcases Bool.not_eq_true _ ▸ hc with _
          cases prev with
          | false => simp at hc
          | true => rfl
        simp [hinv hprev, hb]
    · rw [if_neg hb, normalizePathGo, List.getLast?_append]
      simp [hb]
  | b :: c :: rest, prev, acc, _, hinv => by
    rw [normalizePathGo]
    have htail : (b :: c :: rest).getLast? = (c :: rest).getLast? := by
      rw [List.getLast?_cons_cons]
    rw [htail]
    by_cases hb : b = '/'
    · rw [if_pos hb]
      by_cases hc : (!prev || acc.isEmpty) = true
      · rw [if_pos hc]
        refine normalizePathGo_getLast (c :: rest) true (acc ++ [b]) (by simp) ?_
        intro _
        rw [List.getLast?_append]
        simp [hb]
      · rw [if_neg hc]
        refine normalizePathGo_getLast (c :: rest) true acc (by simp) ?_
        intro _
        have hprev : prev = true := by
          cases prev with
          | false => simp at hc
          | true => rfl
        exact hinv hprev
    · rw [if_neg hb]
      refine normalizePathGo_getLast (c :: rest) false (acc ++ [b]) (by simp) ?_
      intro h
      exact absurd h (by simp)

theorem normalizePathGo_noDouble :
    ∀ (bs : List Char) (prev : Bool) (acc : List Char),
      noDoubleSlash acc →
      (prev = false → acc.getLast? ≠ some '/') →
      (prev = true → acc.getLast? = some '/') →
      noDoubleSlash (normalizePathGo bs prev acc)
  | [], _, _, h, _, _ => h
  | b :: rest, prev, acc, h, hf, ht => by
    rw [normalizePathGo]
    by_cases hb : b = '/'
    · rw [if_pos hb]
      by_cases hc : (!prev || acc.isEmpty) = true
      · rw [if_pos hc]
        refine normalizePathGo_noDouble rest true (acc ++ [b]) ?_ ?_ ?_
        · rw [noDoubleSlash, List.chain'_append]
          refine ⟨h, List.chain'_singleton b, ?_⟩
          intro x hx y hy hpair
          rcases Bool.or_eq_true _ _ ▸ hc with hn | hn
          · have hprev : prev = false := by
              cases prev with
              | false => rfl
              | true => simp at hn
            exact hf hprev (by rw [hx]; exact congrArg some hpair.1)
          · have : acc = [] := by
              cases acc with
              | nil => rfl
              | cons z zs => simp at hn
            rw [this] at hx
            exact absurd hx (by simp)
        · intro hff; exact nomatch hff
        · intro _
          rw [List.getLast?_concat]
          exact congrArg some hb
      · rw [if_neg hc]
        refine normalizePathGo_noDouble rest true acc h ?_ ?_
        · intro hff; exact nomatch hff
        · intro _
          have hprev : prev = true := by
            cases prev with
            | false => simp at hc
            | true => rfl
          exact ht hprev
    · rw [if_neg hb]
      refine normalizePathGo_noDouble rest false (acc ++ [b]) ?_ ?_ ?_
      · rw [noDoubleSlash, List.chain'_append]
        refine ⟨h, List.chain'_singleton b, ?_⟩
        intro x hx y hy hpair
        have hyb : y = b := by
          rw [show ([b] : List Char).head? = some b from rfl] at hy
          exact (Option.some_inj.mp hy).symm
        exact hb (hyb ▸ hpair.2)
      · intro _
        rw [List.getLast?_concat]
        intro hcon
        exact hb (Option.some_inj.mp hcon)
      · intro htt; exact nomatch htt
  termination_by bs => bs.length

/-- C8 counterexample: the purely textual normalization of dirty_paths.rs
returns the input "/a/" unchanged: the input is not the root separator alone,
yet the result ends with the path separator, because `normalize_path` only
collapses runs of separators and never strips a trailing one. -/
theorem normalize_path_trailing_counterexample :
    normalize_path "/a/" = "/a/" ∧
    (("/a/" : String) == "/") = false ∧
    (normalize_path "/a/").data.getLast? = some '/' :=
  ⟨by decide, by decide, by decide⟩

/-- C8 (amended): for every nonempty textual input, `normalize_path` collapses
runs of the path separator (the result has no two adjacent separators),
preserves the leading character (in particular a leading separator), and ends
with the separator exactly when the input ends with the separator — a single
trailing separator is preserved, never stripped and never introduced. -/
theorem normalize_path_separator_policy (s : String) (h : s.data ≠ []) :
    noDoubleSlash (normalize_path s).data ∧
    (normalize_path s).data.head? = s.data.head? ∧
    ((normalize_path s).data.getLast? = some '/' ↔ s.data.getLast? = some '/') := by
  refine ⟨?_, ?_, ?_⟩
  · show noDoubleSlash (normalizePathGo s.data false [])
    refine normalizePathGo_noDouble s.data false [] List.chain'_nil ?_ ?_
    · intro _; simp
    · intro htt; exact nomatch htt
  · show (normalizePathGo s.data false []).head? = s.data.head?
    cases hd : s.data with
    | nil => exact absurd hd h
    | cons b bs =>
      rw [normalizePathGo]
      by_cases hb : b = '/'
      · rw [if_pos hb, if_pos (show (!false || ([] : List Char).isEmpty) = true from rfl)]
        rw [normalizePathGo_head bs true ([] ++ [b]) (by simp)]
        rfl
      · rw [if_neg hb]
        rw [normalizePathGo_head bs false ([] ++ [b]) (by simp)]
        rfl
  · show ((normalizePathGo s.data false []).getLast? = some '/' ↔ _)
    refine normalizePathGo_getLast s.data false [] h ?_
    intro htt; exact nomatch htt

/-- Witness for the amended C8 theorem at the concrete input "/a/". -/
theorem normalize_path_separator_policy_witness :
    ("/a/" : String).data ≠ [] ∧
    (noDoubleSlash (normalize_path "/a/").data ∧
     (normalize_path "/a/").data.head? = ("/a/" : String).data.head? ∧
     ((normalize_path "/a/").data.getLast? = some '/' ↔
       ("/a/" : String).data.getLast? = some '/')) :=
  ⟨by decide, normalize_path_separator_policy "/a/" (by decide)⟩

/-- Wrapping u64 subtraction: the value of `a - b` on u64 operands in a
release build (a debug build panics on the same inputs when `b > a`). -/
def u64Sub (a b : Nat) : Nat := (a % 2 ^ 64 + (2 ^ 64 - b % 2 ^ 64)) % 2 ^ 64

/-- `SessionFrecencyData::frecency_score` (configs.rs lines 576-594): the
time since last access is `now - self.last_accessed` on u64 values, the
recency factor is `exp(-t / 604800)` when that time is positive and 1
otherwise, and the score is `access_count` times the factor.  Floating-point
arithmetic is idealized over the reals. -/
noncomputable def frecency_score (accessCount lastAccessed now : Nat) : ℝ :=
  let t : ℝ := (u64Sub now lastAccessed : Nat)
  let recencyFactor : ℝ := if t > 0 then Real.exp (-t / 604800) else 1
  (accessCount : ℝ) * recencyFactor

/-- The claim's score formula, following the spec's words: `access_count *
exp(-(now - last_seen) / 604800)` with a negative delta clamped to 0 (which
is exactly truncated Nat subtraction). -/
noncomputable def frecencyScoreSpec (accessCount lastSeen now : Nat) : ℝ :=
  (accessCount : ℝ) * Real.exp (-((now - lastSeen : Nat) : ℝ) / 604800)

/-- C4: at access_count = 1, last_seen = 1, now = 0 (the clock one second
behind the record), the claimed clamped formula yields a recency factor of 1
and score 1, but the code's u64 subtraction wraps to 2^64 - 1 seconds, so the
computed score is strictly smaller than the claimed score (essentially 0); in
a debug build the same subtraction panics.  Negative deltas are not clamped. -/
theorem frecency_score_clock_backwards_diverges :
    u64Sub 0 1 = 2 ^ 64 - 1 ∧
    frecencyScoreSpec 1 1 0 = 1 ∧
    frecency_score 1 1 0 < frecencyScoreSpec 1 1 0 := by
  have hwrap : u64Sub 0 1 = 2 ^ 64 - 1 := by decide
  have hspec : frecencyScoreSpec 1 1 0 = 1 := by
    rw [frecencyScoreSpec]
    norm_num [Real.exp_zero]
  refine ⟨hwrap, hspec, ?_⟩
  rw [hspec]
  have ht : ((u64Sub 0 1 : Nat) : ℝ) > 0 := by
    rw [hwrap]
    norm_num
  simp only [frecency_score]
  rw [if_pos ht, Nat.cast_one, one_mul]
  refine Real.exp_lt_one_iff.mpr ?_
  refine div_neg_of_neg_of_pos ?_ (by norm_num)
  exact neg_lt_zero.mpr ht

/-- Hardcoded remote-cache lifetime of github.rs line 15 (one hour). -/
def CACHE_DURATION_SECONDS : Nat := 3600

/-- Freshness decision of `GitHubClient::load_cached_repos` (github.rs lines
69-78): a parseable cache file is returned unless `now - cached_at` (u64
subtraction) exceeds the hardcoded constant; the error return on expiry makes
`get_repositories` fall through to the credential command and the HTTP
fetch. -/
def load_cached_repos_fresh (now cachedAt : Nat) : Bool :=
  if u64Sub now cachedAt > CACHE_DURATION_SECONDS then false else true

/-- `Config::get_github_cache_duration_hours` (configs.rs lines 377-379):
the configured hours, defaulting to 24 * 30 = 720. -/
def get_github_cache_duration_hours (configured : Option Nat) : Nat :=
  configured.getD (24 * 30)

/-- The claim's freshness rule, following the spec's words: reuse the cached
catalogue exactly when `now - cached_at` is at most the configured
`remote_cache_ttl_hours` converted to seconds. -/
def remoteCacheFreshSpec (configured : Option Nat) (now cachedAt : Nat) : Bool :=
  if now - cachedAt ≤ get_github_cache_duration_hours configured * 3600 then true else false

/-- C5: with the TTL left at its default (720 hours = 30 days) and a cache
10000 seconds (under 3 hours) old, the claim says the cached catalogue is
fresh and returned without running the credential command or fetching, but
the code treats it as expired: `load_cached_repos` compares the age against
the hardcoded one-hour `CACHE_DURATION_SECONDS` and never consults
`get_github_cache_duration_hours`. -/
theorem remote_cache_ttl_diverges :
    get_github_cache_duration_hours none = 720 ∧
    remoteCacheFreshSpec none 10000 0 = true ∧
    load_cached_repos_fresh 10000 0 = false :=
  ⟨by decide, by decide, by decide⟩

/-- Filesystem effects relevant to cache and state persistence. -/
inductive FsOp where
  | writeFile (path : String) (contents : String)
  | fsyncFile (path : String)
  | renameFile (src dst : String)
deriving DecidableEq

/-- Effect trace of `StateManager::save_state` (state.rs lines 62-72): one
`std::fs::write` of the serialized state to `state.json` under the state
directory. -/
def save_state_ops (stateDir content : String) : List FsOp :=
  [FsOp.writeFile (stateDir ++ "/state.json") content]

/-- Effect trace of `perf_json::to_file` (perf_json.rs lines 84-92): one
`tokio::fs::write` of the serialized JSON to the target path. -/
def to_file_ops (path json : String) : List FsOp :=
  [FsOp.writeFile path json]

/-- Effect trace of `GitHubClient::cache_repositories` (github.rs lines
163-181): one `tokio::fs::write` of the serialized cache record. -/
def cache_repositories_ops (cacheFile content : String) : List FsOp :=
  [FsOp.writeFile cacheFile content]

/-- The claim's atomic-replacement shape, following the spec's words: write a
temporary file distinct from the target, fsync it, and rename it over the
target (the same-directory requirement is dropped, which only weakens the
test and so strengthens its refutation). -/
def isAtomicReplacement (ops : List FsOp) (target : String) : Bool :=
  match ops with
  | [FsOp.writeFile tmp _, FsOp.fsyncFile tmp2, FsOp.renameFile src dst] =>
      tmp == tmp2 && src == tmp && dst == target && !(tmp == target)
  | _ => false

/-- C6 counterexample: the state write is a single direct write to the target
path and does not perform the temporary-file/fsync/rename sequence; the same
holds for the perf_json cache writer. -/
theorem save_state_not_atomic_replacement :
    save_state_ops "/s" "x" = [FsOp.writeFile ("/s" ++ "/state.json") "x"] ∧
    isAtomicReplacement (save_state_ops "/s" "x") ("/s" ++ "/state.json") = false ∧
    isAtomicReplacement (to_file_ops "/c/local.json" "y") "/c/local.json" = false :=
  ⟨rfl, by decide, by decide⟩

/-- C6 (amended): every cache or state record write in state.rs, perf_json.rs
and github.rs is a single direct whole-file write to the target path; no
temporary file is created, no fsync is issued and no rename is performed, so
atomic replacement is not provided and an interrupted writer can leave a
truncated target for a concurrent reader. -/
theorem persistence_writes_are_direct (stateDir content path json cacheFile record : String) :
    save_state_ops stateDir content
      = [FsOp.writeFile (stateDir ++ "/state.json") content] ∧
    to_file_ops path json = [FsOp.writeFile path json] ∧
    cache_repositories_ops cacheFile record = [FsOp.writeFile cacheFile record] ∧
    isAtomicReplacement (save_state_ops stateDir content) (stateDir ++ "/state.json") = false ∧
    isAtomicReplacement (to_file_ops path json) path = false ∧
    isAtomicReplacement (cache_repositories_ops cacheFile record) cacheFile = false :=
  ⟨rfl, rfl, rfl, rfl, rfl, rfl⟩

/-- Mirrors state.rs `struct AppState { active_profile: Option<String> }`:
the entire persisted state record. -/
structure AppState where
  active_profile : Option String
deriving DecidableEq

/-- Mirrors configs.rs `struct SessionFrecencyData` (u32 count and u64 Unix
timestamps, as Nat). -/
structure SessionFrecencyData where
  access_count : Nat
  last_accessed : Nat
  first_accessed : Nat
deriving DecidableEq

/-- `SessionFrecencyData::new()` at clock `now` (configs.rs lines 552-563). -/
def SessionFrecencyData.new (now : Nat) : SessionFrecencyData :=
  { access_count := 1, last_accessed := now, first_accessed := now }

/-- `SessionFrecencyData::update_access` at clock `now` (configs.rs lines
565-571). -/
def SessionFrecencyData.update_access (d : SessionFrecencyData) (now : Nat) :
    SessionFrecencyData :=
  { d with access_count := d.access_count + 1, last_accessed := now }

/-- The claim-relevant slice of configs.rs `struct Config`: the
`session_frecency` map, as an association list; the other configuration
fields do not interact with the frecency table or the state file. -/
structure Config where
  session_frecency : Option (List (String × SessionFrecencyData))
deriving DecidableEq

/-- Lookup in the frecency map. -/
def frecLookup (m : List (String × SessionFrecencyData)) (k : String) :
    Option SessionFrecencyData :=
  (m.find? (fun e => e.fst == k)).map (·.snd)

/-- The map mutation of `Config::update_session_frecency` (configs.rs lines
344-353): update the existing record in place or insert a fresh one. -/
def frecUpdate : List (String × SessionFrecencyData) → String → Nat →
    List (String × SessionFrecencyData)
  | [], k, now => [(k, SessionFrecencyData.new now)]
  | e :: rest, k, now =>
    if e.fst == k then (e.fst, e.snd.update_access now) :: rest
    else e :: frecUpdate rest k now

/-- `Config::update_session_frecency` with `get_or_insert_with(HashMap::new)`
on the optional map. -/
def Config.update_session_frecency (cfg : Config) (name : String) (now : Nat) : Config :=
  { cfg with
    session_frecency := some (frecUpdate (cfg.session_frecency.getD []) name now) }

/-- A document written during post-selection persistence: the whole
configuration (`Config::save` rewrites the configuration file) or the state
record (`StateManager::save_state`). -/
inductive PersistedDoc where
  | configDoc (cfg : Config)
  | stateDoc (st : AppState)
deriving DecidableEq

/-- The post-selection persistence of main.rs (lines 93-151; all three arms
are identical in this respect): bump the selected name's frecency inside the
configuration and save the configuration document; the state file is not
written there. -/
def mainSelectionPersist (cfg : Config) (name : String) (now : Nat) :
    Config × List PersistedDoc :=
  let cfg2 := cfg.update_session_frecency name now
  (cfg2, [PersistedDoc.configDoc cfg2])

theorem frecLookup_frecUpdate :
    ∀ (m : List (String × SessionFrecencyData)) (k : String) (now : Nat),
      frecLookup (frecUpdate m k now) k =
        some (match frecLookup m k with
              | some d => d.update_access now
              | none => SessionFrecencyData.new now)
  | [], k, now => by
    simp [frecUpdate, frecLookup]
  | (a, b) :: rest, k, now => by
    by_cases he : (a == k) = true
    · simp [frecUpdate, frecLookup, List.find?_cons, he]
    · have ih := frecLookup_frecUpdate rest k now
      simp only [frecUpdate, frecLookup, List.find?_cons] at ih ⊢
      simpa [he] using ih

/-- C9: on a successful selection, the only persisted document is the whole
configuration, whose `session_frecency` table now maps the selected name to
its bumped (or freshly created) record; no state document is written by the
selection block, and the state record type determines a state solely from the
active mode tag, so it can carry no frecency data. -/
theorem selection_persists_frecency_in_config (cfg : Config) (name : String) (now : Nat) :
    (mainSelectionPersist cfg name now).2
      = [PersistedDoc.configDoc (mainSelectionPersist cfg name now).1] ∧
    frecLookup ((mainSelectionPersist cfg name now).1.session_frecency.getD []) name
      = some (match frecLookup (cfg.session_frecency.getD []) name with
              | some d => d.update_access now
              | none => SessionFrecencyData.new now) ∧
    (∀ doc ∈ (mainSelectionPersist cfg name now).2, ∀ st : AppState,
        doc ≠ PersistedDoc.stateDoc st) ∧
    (∀ st1 st2 : AppState, st1.active_profile = st2.active_profile → st1 = st2) := by
  refine ⟨rfl, ?_, ?_, ?_⟩
  · exact frecLookup_frecUpdate (cfg.session_frecency.getD []) name now
  · intro doc hdoc st
    rw [show (mainSelectionPersist cfg name now).2
        = [PersistedDoc.configDoc (mainSelectionPersist cfg name now).1] from rfl] at hdoc
    rw [List.mem_singleton.mp hdoc]
    intro hcon
    exact PersistedDoc.noConfusion hcon
  · intro st1 st2 h
    cases st1
    cases st2
    simpa using h

/-- Witness for C9 at a concrete configuration, selection name and clock. -/
theorem selection_persists_frecency_in_config_witness :
    (mainSelectionPersist ⟨none⟩ "alpha" 5).2
      = [PersistedDoc.configDoc (mainSelectionPersist ⟨none⟩ "alpha" 5).1] ∧
    frecLookup ((mainSelectionPersist ⟨none⟩ "alpha" 5).1.session_frecency.getD []) "alpha"
      = some (match frecLookup ((⟨none⟩ : Config).session_frecency.getD []) "alpha" with
              | some d => d.update_access 5
              | none => SessionFrecencyData.new 5) ∧
    (∀ doc ∈ (mainSelectionPersist ⟨none⟩ "alpha" 5).2, ∀ st : AppState,
        doc ≠ PersistedDoc.stateDoc st) ∧
    (∀ st1 st2 : AppState, st1.active_profile = st2.active_profile → st1 = st2) :=
  selection_persists_frecency_in_config ⟨none⟩ "alpha" 5

/-- Mirrors picker/mod.rs `enum PickerMode` (lines 47-51). -/
inductive PickerMode where
  | Local
  | GitHub (profileName : String)
deriving DecidableEq

/-- The claim-relevant slice of configs.rs `struct GitHubProfile`. -/
structure GitHubProfile where
  name : String
  credentials_command : String
  clone_root_path : String
deriving DecidableEq

/-- `Config::get_github_profiles` (configs.rs lines 363-365). -/
def get_github_profiles (profiles : Option (List GitHubProfile)) : List GitHubProfile :=
  profiles.getD []

/-- The profile loop of `create_available_modes`, with the `HashSet` of seen
names as a list (`insert` reports a new element exactly when it was not
already present). -/
def availableModesGo (seen : List String) : List GitHubProfile → List PickerMode
  | [] => []
  | p :: rest =>
    if p.name ∈ seen then availableModesGo seen rest
    else PickerMode.GitHub p.name :: availableModesGo (p.name :: seen) rest

/-- `create_available_modes` (picker/mod.rs lines 115-127): Local first, then
one GitHub mode per distinct profile name. -/
def create_available_modes (profiles : Option (List GitHubProfile)) : List PickerMode :=
  PickerMode.Local :: availableModesGo [] (get_github_profiles profiles)

/-- Profile name carried by a mode. -/
def modeProfileName : PickerMode → Option String
  | .Local => none
  | .GitHub n => some n

theorem availableModesGo_names :
    ∀ (profiles : List GitHubProfile) (seen : List String),
      ((availableModesGo seen profiles).filterMap modeProfileName).Nodup ∧
      ∀ n ∈ (availableModesGo seen profiles).filterMap modeProfileName, n ∉ seen
  | [], _ => ⟨List.nodup_nil, fun n hn => absurd hn (List.not_mem_nil n)⟩
  | p :: rest, seen => by
    by_cases hp : p.name ∈ seen
    · rw [availableModesGo, if_pos hp]
      exact availableModesGo_names rest seen
    · rw [availableModesGo, if_neg hp]
      have ih := availableModesGo_names rest (p.name :: seen)
      have hred : (PickerMode.GitHub p.name ::
            availableModesGo (p.name :: seen) rest).filterMap modeProfileName
          = p.name :: (availableModesGo (p.name :: seen) rest).filterMap modeProfileName := by
        simp [List.filterMap_cons, modeProfileName]
      rw [hred]
      constructor
      · refine List.nodup_cons.mpr ⟨?_, ih.1⟩
        intro hmem
        exact (ih.2 p.name hmem) (List.mem_cons_self _ _)
      · intro n hn
        rcases List.mem_cons.mp hn with h1 | h1
        · rw [h1]; exact hp
        · intro hseen
          exact (ih.2 n h1) (List.mem_cons_of_mem _ hseen)

theorem availableModesGo_not_local :
    ∀ (profiles : List GitHubProfile) (seen : List String),
      ∀ m ∈ availableModesGo seen profiles, m ≠ PickerMode.Local
  | [], _ => fun m hm => absurd hm (List.not_mem_nil m)
  | p :: rest, seen => by
    by_cases hp : p.name ∈ seen
    · rw [availableModesGo, if_pos hp]
      exact availableModesGo_not_local rest seen
    · rw [availableModesGo, if_neg hp]
      intro m hm
      rcases List.mem_cons.mp hm with h1 | h1
      · rw [h1]
        intro hcon
        exact PickerMode.noConfusion hcon
      · exact availableModesGo_not_local rest (p.name :: seen) m h1

/-- C10: for every configuration, the picker's available-mode list starts
with the Local mode, carries pairwise-distinct GitHub profile names (so two
remote profiles sharing a name yield one mode), and contains the Local mode
nowhere else. -/
theorem create_available_modes_local_first_unique
    (profiles : Option (List GitHubProfile)) :
    (create_available_modes profiles).head? = some PickerMode.Local ∧
    ((create_available_modes profiles).filterMap modeProfileName).Nodup ∧
    ∀ m ∈ (create_available_modes profiles).tail, m ≠ PickerMode.Local := by
  refine ⟨rfl, ?_, ?_⟩
  · have hred : (create_available_modes profiles).filterMap modeProfileName
        = (availableModesGo [] (get_github_profiles profiles)).filterMap modeProfileName := by
      simp [create_available_modes, List.filterMap_cons, modeProfileName]
    rw [hred]
    exact (availableModesGo_names (get_github_profiles profiles) []).1
  · exact availableModesGo_not_local (get_github_profiles profiles) []

/-- Witness for C10 at the duplicated-profile configuration of the
repository's own test (work, personal, work). -/
theorem create_available_modes_witness :
    (create_available_modes (some [⟨"work", "c1", "r1"⟩, ⟨"personal", "c2", "r2"⟩,
        ⟨"work", "c3", "r3"⟩])).head? = some PickerMode.Local ∧
    ((create_available_modes (some [⟨"work", "c1", "r1"⟩, ⟨"personal", "c2", "r2"⟩,
        ⟨"work", "c3", "r3"⟩])).filterMap modeProfileName).Nodup ∧
    ∀ m ∈ (create_available_modes (some [⟨"work", "c1", "r1"⟩, ⟨"personal", "c2", "r2"⟩,
        ⟨"work", "c3", "r3"⟩])).tail, m ≠ PickerMode.Local :=
  create_available_modes_local_first_unique
    (some [⟨"work", "c1", "r1"⟩, ⟨"personal", "c2", "r2"⟩, ⟨"work", "c3", "r3"⟩])

/-- The claim-relevant slice of the picker (picker/mod.rs lines 88-113): the
current mode, the string items injected into the current matcher (`Nucleo` is
replaced wholesale on a mode switch, so the injected-item list models it),
the optional streaming receiver with its still-pending items, the running
item counter, and the profile tag persisted through the state store. -/
structure PickerState where
  current_mode : PickerMode
  matcherItems : List String
  receiver : Option (List String)
  total_items_added : Nat
  savedProfile : Option String
deriving DecidableEq

/-- The streaming-ingest block of one `async_main_loop` iteration
(picker/mod.rs lines 312-320): when a receiver is present, drain every
pending item into the current matcher's injector. -/
def drainReceiver (s : PickerState) : PickerState :=
  match s.receiver with
  | none => s
  | some pending =>
    { s with
      matcherItems := s.matcherItems ++ pending
      receiver := some []
      total_items_added := s.total_items_added + pending.length }

/-- `Picker::clear_and_save_mode` (picker/mod.rs lines 1202-1217): replace
the matcher with a fresh empty one, reset selection and counter, persist the
current mode's tag; the `receiver` field is left untouched. -/
def clear_and_save_mode (s : PickerState) : PickerState :=
  { s with
    matcherItems := []
    total_items_added := 0
    savedProfile := some (match s.current_mode with
                          | PickerMode.Local => "local"
                          | PickerMode.GitHub n => n) }

/-- `Picker::switch_to_mode` (picker/mod.rs lines 1119-1131) together with
the mode load it triggers (`load_github_mode_data`, lines 1219-1249, or
`load_local_mode_data`): set the new mode, clear and save, then replace the
matcher with the new mode's items (the fetched catalogue rows or the cached
local sessions). -/
def switch_to_mode (s : PickerState) (newMode : PickerMode)
    (newItems : List String) : PickerState :=
  let s1 := { s with current_mode := newMode }
  let s2 := clear_and_save_mode s1
  { s2 with matcherItems := newItems, total_items_added := newItems.length }

/-- A streaming picker in Local mode whose discovery channel still holds the
item "proj". -/
def pickerBeforeSwitch : PickerState :=
  { current_mode := PickerMode.Local
    matcherItems := ["old"]
    receiver := some ["proj"]
    total_items_added := 1
    savedProfile := some "local" }

/-- C3: switching the streaming picker to the Remote mode GitHub "work"
replaces the matcher (only the fetched catalogue row "gh1" is in it), but the
discovery receiver survives the switch, and the next event-loop iteration
drains the still-pending Local discovery item "proj" into the replaced
matcher: an item produced by the previous mode's data source joins the new
mode's item set, contradicting the claim. -/
theorem mode_switch_leaks_stream_items :
    (switch_to_mode pickerBeforeSwitch (PickerMode.GitHub "work") ["gh1"]).matcherItems
      = ["gh1"] ∧
    (switch_to_mode pickerBeforeSwitch (PickerMode.GitHub "work") ["gh1"]).receiver
      = some ["proj"] ∧
    (drainReceiver (switch_to_mode pickerBeforeSwitch
        (PickerMode.GitHub "work") ["gh1"])).current_mode = PickerMode.GitHub "work" ∧
    (drainReceiver (switch_to_mode pickerBeforeSwitch
        (PickerMode.GitHub "work") ["gh1"])).matcherItems = ["gh1", "proj"] ∧
    "proj" ∈ (drainReceiver (switch_to_mode pickerBeforeSwitch
        (PickerMode.GitHub "work") ["gh1"])).matcherItems :=
  ⟨rfl, rfl, rfl, rfl, by decide⟩
